import Mathlib

/-!
# Choropleth map-classification schemes: verification development

The repository (a teaching notebook) delegates all data classification to an
external `mapclassify` package; only the call sites appear in the notebook.
The specification recasts this as a small self-contained classification
library: stats utilities, a classifier engine (Equal Interval, Quantiles,
Maximum Breaks, Fisher–Jenks, Head/Tail Breaks, Box Plot), the ADCM fit
evaluator, and an outlier labeler.  Observation values are embedded as
rationals; every definition below is executable.
-/

namespace MapClassify

/-- Modelled from the spec: observations are an ordered sequence of real-valued
attribute measurements; values embedded as `ℚ`.  `sortQ` is the sorted copy of
the observation array used by the classifiers (the array itself is never
mutated). -/
def sortQ (ys : List ℚ) : List ℚ := List.insertionSort (· ≤ ·) ys

/-- Modelled from the spec: the global minimum of the observation array
(the first element of the sorted values; `0` on empty input). -/
def minV (ys : List ℚ) : ℚ := (sortQ ys).getD 0 0

/-- Modelled from the spec: the global maximum of the observation array
(the last element of the sorted values; `0` on empty input). -/
def maxV (ys : List ℚ) : ℚ := (sortQ ys).getD ((sortQ ys).length - 1) 0

/-- Modelled from the spec: arithmetic mean of a value list (stats utility). -/
def mean (l : List ℚ) : ℚ := l.sum / l.length

/-- Modelled from the spec: median of a value list (stats utility): the middle
element of the sorted values, or the average of the two middle elements for an
even count. -/
def median (l : List ℚ) : ℚ :=
  let s := sortQ l
  (s.getD ((s.length - 1) / 2) 0 + s.getD (s.length / 2) 0) / 2

/-- Modelled from the spec: `quantile(p)` (stats utility) with `p = a / b`
given as numerator and denominator.  We adopt the inverted-CDF (Type 1)
convention: the quantile is the sorted value at one-based rank `⌈p·n⌉`,
computed here in `ℕ` as `(a*n + b - 1) / b`. -/
def quantile (ys : List ℚ) (a b : ℕ) : ℚ :=
  let s := sortQ ys
  s.getD ((a * s.length + b - 1) / b - 1) 0

/-- Modelled from the spec: `unique_count` (stats utility): the number of
distinct values in the observation array. -/
def uniqueCount (ys : List ℚ) : ℕ := ys.dedup.length

/-- Modelled from the spec: the boundary-inclusivity policy.  Given the list of
interior cut values, a value `y` is assigned the number of cuts strictly below
it, so the class of `y` is `j` iff `cut_j < y ≤ cut_(j+1)` with the lowest
class closed on both ends. -/
def binOfCuts (cuts : List ℚ) (y : ℚ) : ℕ := cuts.countP (fun c => c < y)

/-- Modelled from the spec: bin assignment from a full boundary list
`c_0, …, c_k` (outer boundaries at the data min and max): only the interior
boundaries `c_1, …, c_(k-1)` act as cuts. -/
def binOf (bnds : List ℚ) (y : ℚ) : ℕ := binOfCuts ((bnds.drop 1).dropLast) y

/-- Modelled from the spec: a Classification Result: class boundaries, the
per-observation bin assignment `yb`, and the (requested or derived) class
count `k`. -/
structure ClassificationResult where
  boundaries : List ℚ
  yb : List ℕ
  k : ℕ
deriving DecidableEq

/-- Modelled from the spec: boundary list of a k-parameterized classifier:
the data minimum, the sorted interior cuts, then the data maximum. -/
def mkBounds (ys : List ℚ) (interior : List ℚ) : List ℚ :=
  minV ys :: List.insertionSort (· ≤ ·) interior ++ [maxV ys]

/-- Modelled from the spec: Equal Interval interior boundaries
`min + i*(max-min)/k` for `i = 1, …, k-1`. -/
def eiCuts (ys : List ℚ) (k : ℕ) : List ℚ :=
  (List.range (k - 1)).map (fun i => minV ys + (i + 1 : ℕ) * ((maxV ys - minV ys) / k))

/-- Modelled from the spec: the Equal Interval classifier (`mc.Equal_Interval`
in the notebook, implemented in the external package): boundaries
`min + i*(max-min)/k` for `i ∈ [0,k]`, bins assigned by the inclusivity
policy. -/
def Equal_Interval (ys : List ℚ) (k : ℕ) : ClassificationResult :=
  let b := mkBounds ys (eiCuts ys k)
  ⟨b, ys.map (binOf b), k⟩

/-- Modelled from the spec: Quantiles interior boundaries at the `i/k`-th
quantiles of the sorted values, `i = 1, …, k-1`. -/
def qCuts (ys : List ℚ) (k : ℕ) : List ℚ :=
  (List.range (k - 1)).map (fun i => quantile ys (i + 1) k)

/-- Modelled from the spec: the Quantiles classifier (`mc.Quantiles` in the
notebook): interior boundaries at the `i/k`-th quantiles, plus global min and
max as outer boundaries. -/
def Quantiles (ys : List ℚ) (k : ℕ) : ClassificationResult :=
  let b := mkBounds ys (qCuts ys k)
  ⟨b, ys.map (binOf b), k⟩

/-- Modelled from the spec: the consecutive gaps of the sorted unique values,
paired with the midpoint of each gap. -/
def gapMidpoints (ys : List ℚ) : List (ℚ × ℚ) :=
  let u := List.insertionSort (· ≤ ·) ys.dedup
  (u.zip u.tail).map (fun p => (p.2 - p.1, (p.1 + p.2) / 2))

/-- Modelled from the spec: Maximum Breaks interior boundaries: the midpoints
of the `k-1` largest gaps between consecutive sorted unique values (ties kept
in gap order). -/
def mbCuts (ys : List ℚ) (k : ℕ) : List ℚ :=
  ((List.insertionSort (fun p q : ℚ × ℚ => q.1 ≤ p.1) (gapMidpoints ys)).take (k - 1)).map
    Prod.snd

/-- Modelled from the spec: the Maximum Breaks classifier
(`mc.Maximum_Breaks` in the notebook). -/
def Maximum_Breaks (ys : List ℚ) (k : ℕ) : ClassificationResult :=
  let b := mkBounds ys (mbCuts ys k)
  ⟨b, ys.map (binOf b), k⟩

/-- Modelled from the spec: all partitions of a list into exactly `k`
contiguous (possibly empty) classes, enumerated by the size of the first
class. -/
def partsK : ℕ → List ℚ → List (List (List ℚ))
  | 0, l => if l.isEmpty then [[]] else []
  | k + 1, l =>
      ((List.range (l.length + 1)).map (fun i => (l.take i, l.drop i))).flatMap
        (fun pr => (partsK k pr.2).map (fun ps => pr.1 :: ps))

/-- Modelled from the spec: first element attaining the minimum of `f` on a
list (`none` on an empty list). -/
def argminBy {α : Type} (f : α → ℚ) : List α → Option α
  | [] => none
  | a :: l =>
      match argminBy f l with
      | none => some a
      | some b => if f a ≤ f b then some a else some b

/-- Modelled from the spec: within-class sum of squared deviations from the
class mean. -/
def ssd (l : List ℚ) : ℚ := (l.map (fun x => (x - mean l) ^ 2)).sum

/-- Modelled from the spec: the Fisher–Jenks objective: total within-class sum
of squared deviations from class means over a partition. -/
def totalSSD (ps : List (List ℚ)) : ℚ := (ps.map ssd).sum

/-- Modelled from the spec: the Fisher–Jenks optimal partition: over all
partitions of the sorted values into exactly `k` contiguous classes, one
minimizing the total within-class sum of squared deviations from class means
(the naive exhaustive variant of the dynamic program; classes may be empty,
which never lowers the optimum). -/
def fjParts (ys : List ℚ) (k : ℕ) : List (List ℚ) :=
  (argminBy totalSSD (partsK k (sortQ ys))).getD [sortQ ys]

/-- Modelled from the spec: Fisher–Jenks interior boundaries: the largest
value of each class except the last (empty classes contribute none). -/
def fjCuts (ys : List ℚ) (k : ℕ) : List ℚ :=
  (fjParts ys k).dropLast.flatMap (fun p => p.getLast?.toList)

/-- Modelled from the spec: the Fisher–Jenks classifier (`mc.Fisher_Jenks` in
the notebook). -/
def Fisher_Jenks (ys : List ℚ) (k : ℕ) : ClassificationResult :=
  let b := mkBounds ys (fjCuts ys k)
  ⟨b, ys.map (binOf b), k⟩

/-- Modelled from the spec: the Head/Tail Breaks recursion: at each step the
mean of the current set is a cut; the set is partitioned into values `≤ mean`
and values `> mean`, and the recursion continues into the tail subset only
while the tail is smaller than half of the current set and has more than one
element. -/
def headTailCuts (ys : List ℚ) : List ℚ :=
  if _h : 1 < (ys.filter (fun y => mean ys < y)).length ∧
      2 * (ys.filter (fun y => mean ys < y)).length < ys.length then
    mean ys :: headTailCuts (ys.filter (fun y => mean ys < y))
  else [mean ys]
termination_by ys.length
decreasing_by
  omega

/-- Modelled from the spec: the Head/Tail Breaks classifier
(`mc.HeadTail_Breaks` in the notebook): the class count is derived from the
recursion depth, not supplied by the caller. -/
def HeadTail_Breaks (ys : List ℚ) : ClassificationResult :=
  let b := minV ys :: headTailCuts ys ++ [maxV ys]
  ⟨b, ys.map (binOf b), (headTailCuts ys).length + 1⟩

/-- Modelled from the spec: Box Plot boundaries: `Q1 - h*IQR`, `Q1`, `median`,
`Q3`, `Q3 + h*IQR`. -/
def boxCuts (ys : List ℚ) (hinge : ℚ) : List ℚ :=
  let q1 := quantile ys 1 4
  let q3 := quantile ys 3 4
  let iqr := q3 - q1
  [q1 - hinge * iqr, q1, median ys, q3, q3 + hinge * iqr]

/-- Modelled from the spec: the Box Plot classifier (`mc.Box_Plot` in the
notebook): five boundaries from the five-number summary with outlier fences
(`hinge` defaults to `1.5`), giving six classes; all five boundaries act as
cuts, so the extreme classes are open-ended. -/
def Box_Plot (ys : List ℚ) (hinge : ℚ := 3 / 2) : ClassificationResult :=
  let cuts := boxCuts ys hinge
  ⟨cuts, ys.map (binOfCuts cuts), 6⟩

/-- Modelled from the spec: the class of observations assigned bin `j` in a
classification result, read off from the `yb` assignment. -/
def classOf (r : ClassificationResult) (ys : List ℚ) (j : ℕ) : List ℚ :=
  ((ys.zip r.yb).filter (fun p => p.2 = j)).map Prod.fst

/-- Modelled from the spec: the ADCM fit metric: for each class, the sum of
absolute deviations of its assigned values from the class median, summed over
all classes. -/
def adcm (r : ClassificationResult) (ys : List ℚ) : ℚ :=
  ((List.range r.k).map
    (fun j => ((classOf r ys j).map (fun y => |y - median (classOf r ys j)|)).sum)).sum

/-- Modelled from the spec: total within-class sum of squared deviations from
class means of a classification result (the Fisher–Jenks objective evaluated
on the classes a classifier actually produces). -/
def ssdOf (r : ClassificationResult) (ys : List ℚ) : ℚ :=
  ((List.range r.k).map (fun j => ssd (classOf r ys j))).sum

/-- Modelled from the spec: the error taxonomy of `classify`: zero
observations, or a class count out of range. -/
inductive ClassifyError where
  | emptyInputError
  | invalidKError
deriving DecidableEq

/-- Modelled from the spec: the closed set of k-parameterized classifier
variants (the spec replaces the package's reflective `CLASSIFIERS` registry
with an explicit sum type). -/
inductive KClassifier where
  | equalInterval
  | quantiles
  | maximumBreaks
  | fisherJenks
deriving DecidableEq

/-- Modelled from the spec: dispatch a k-parameterized classifier variant. -/
def runK : KClassifier → List ℚ → ℕ → ClassificationResult
  | .equalInterval, ys, k => Equal_Interval ys k
  | .quantiles, ys, k => Quantiles ys k
  | .maximumBreaks, ys, k => Maximum_Breaks ys k
  | .fisherJenks, ys, k => Fisher_Jenks ys k

/-- Modelled from the spec: the common `classify` contract: eager input
validation (`EmptyInputError` on an empty array, `InvalidKError` when `k < 1`
or `k` exceeds the number of observations) before any computation; an invalid
`k` is never clamped. -/
def classify (c : KClassifier) (ys : List ℚ) (k : ℕ) :
    Except ClassifyError ClassificationResult :=
  if ys = [] then .error .emptyInputError
  else if k < 1 ∨ ys.length < k then .error .invalidKError
  else .ok (runK c ys k)

/-- Modelled from the spec and the notebook: the fixed ordered list of six
outlier labels used with Box Plot output. -/
def outlierLabels : List String :=
  ["0-low outlier", "1-low whisker", "2-Q2", "3-Q3", "4-high whisker", "5-high outlier"]

/-- Modelled from the spec: the Outlier Labeler: maps each `yb` entry to its
label by direct indexing (`none` models the `IndexError`-equivalent for an
entry outside the label range). -/
def labelAll (r : ClassificationResult) : List (Option String) :=
  r.yb.map (fun b => outlierLabels.get? b)

/-- Modelled from the spec: the boundary-inclusivity policy as a predicate on a
boundary list and a value: for the assigned class `j`, `c_j < y ≤ c_(j+1)`,
except that the lowest class is closed on both ends. -/
def policyHolds (bnds : List ℚ) (y : ℚ) : Prop :=
  (binOf bnds y = 0 → bnds.getD 0 0 ≤ y ∧ y ≤ bnds.getD 1 0) ∧
  (1 ≤ binOf bnds y → bnds.getD (binOf bnds y) 0 < y ∧ y ≤ bnds.getD (binOf bnds y + 1) 0)


/-! ## Sorted-list toolkit -/

theorem sortQ_perm (ys : List ℚ) : (sortQ ys).Perm ys := List.perm_insertionSort _ ys

theorem sortQ_sorted (ys : List ℚ) : (sortQ ys).Sorted (· ≤ ·) := List.sorted_insertionSort _ ys

theorem mem_sortQ {y : ℚ} {ys : List ℚ} : y ∈ sortQ ys ↔ y ∈ ys := List.mem_insertionSort _

theorem length_sortQ (ys : List ℚ) : (sortQ ys).length = ys.length :=
  List.length_insertionSort _ ys

theorem getD_mem {l : List ℚ} {i : ℕ} (h : i < l.length) : l.getD i 0 ∈ l := by
  rw [List.getD_eq_getElem l 0 h]
  exact List.getElem_mem h

theorem sorted_getD_le {l : List ℚ} (hs : l.Sorted (· ≤ ·)) {i j : ℕ} (hij : i ≤ j)
    (hj : j < l.length) : l.getD i 0 ≤ l.getD j 0 := by
  rcases eq_or_lt_of_le hij with rfl | hlt
  · exact le_refl _
  · rw [List.getD_eq_getElem l 0 (lt_of_le_of_lt hij hj), List.getD_eq_getElem l 0 hj]
    exact List.pairwise_iff_getElem.mp hs i j _ hj hlt

theorem minV_le_of_mem {y : ℚ} {ys : List ℚ} (hy : y ∈ ys) : minV ys ≤ y := by
  obtain ⟨i, hi, rfl⟩ := List.mem_iff_getElem.mp (mem_sortQ.mpr hy)
  rw [← List.getD_eq_getElem (sortQ ys) 0 hi]
  exact sorted_getD_le (sortQ_sorted ys) (Nat.zero_le i) hi

theorem le_maxV_of_mem {y : ℚ} {ys : List ℚ} (hy : y ∈ ys) : y ≤ maxV ys := by
  obtain ⟨i, hi, rfl⟩ := List.mem_iff_getElem.mp (mem_sortQ.mpr hy)
  rw [← List.getD_eq_getElem (sortQ ys) 0 hi]
  exact sorted_getD_le (sortQ_sorted ys) (by omega) (by omega)

theorem minV_le_maxV {ys : List ℚ} (h : ys ≠ []) : minV ys ≤ maxV ys := by
  have hlen : 0 < (sortQ ys).length := by
    rw [length_sortQ]
    exact List.length_pos.mpr h
  exact sorted_getD_le (sortQ_sorted ys) (Nat.zero_le _) (by omega)

/-! ## The bin-assignment rule -/

theorem binOfCuts_le_length (cuts : List ℚ) (y : ℚ) : binOfCuts cuts y ≤ cuts.length :=
  List.countP_le_length _

theorem lt_binOfCuts_iff {cuts : List ℚ} (hs : cuts.Sorted (· ≤ ·)) {y : ℚ} {i : ℕ}
    (hi : i < cuts.length) : i < binOfCuts cuts y ↔ cuts.getD i 0 < y := by
  induction cuts generalizing i with
  | nil => simp at hi
  | cons a l ih =>
    obtain ⟨ha, hsl⟩ := List.sorted_cons.mp hs
    unfold binOfCuts at *
    rw [List.countP_cons]
    by_cases hay : a < y
    · rw [if_pos (decide_eq_true hay)]
      cases i with
      | zero =>
        simp only [List.getD_cons_zero]
        exact iff_of_true (by omega) hay
      | succ i' =>
        rw [List.getD_cons_succ, Nat.add_lt_add_iff_right]
        exact ih hsl (by simpa using hi)
    · have hz : List.countP (fun c => decide (c < y)) l = 0 := by
        refine List.countP_eq_zero.mpr (fun x hx => ?_)
        simp only [decide_eq_true_eq]
        exact fun hlt => hay (lt_of_le_of_lt (ha x hx) hlt)
      rw [if_neg (by simp only [decide_eq_true_eq]; exact hay), hz]
      cases i with
      | zero =>
        simp only [List.getD_cons_zero]
        exact iff_of_false (by omega) hay
      | succ i' =>
        rw [List.getD_cons_succ]
        refine iff_of_false (by omega) ?_
        intro hlt
        exact hay (lt_of_le_of_lt (ha _ (getD_mem (by simpa using hi))) hlt)

theorem binOf_mkBounds (ys L : List ℚ) (y : ℚ) :
    binOf (mkBounds ys L) y = binOfCuts (List.insertionSort (· ≤ ·) L) y := by
  show binOfCuts
      (((minV ys :: (List.insertionSort (· ≤ ·) L ++ [maxV ys])).drop 1).dropLast) y = _
  rw [List.drop_succ_cons, List.drop_zero, List.dropLast_concat]

theorem policy_mkBounds {ys L : List ℚ} {y : ℚ}
    (hbr : ∀ x ∈ L, minV ys ≤ x ∧ x ≤ maxV ys)
    (hymin : minV ys ≤ y) (hymax : y ≤ maxV ys) :
    policyHolds (mkBounds ys L) y := by
  set S := List.insertionSort (· ≤ ·) L with hS
  have hsorted : S.Sorted (· ≤ ·) := List.sorted_insertionSort _ L
  have hbrS : ∀ x ∈ S, minV ys ≤ x ∧ x ≤ maxV ys := fun x hx =>
    hbr x ((List.mem_insertionSort _).mp hx)
  have hbin : binOf (mkBounds ys L) y = binOfCuts S y := binOf_mkBounds ys L y
  have hble : binOfCuts S y ≤ S.length := binOfCuts_le_length S y
  have hget0 : (mkBounds ys L).getD 0 0 = minV ys := rfl
  have hgetSucc : ∀ j, (mkBounds ys L).getD (j + 1) 0 = (S ++ [maxV ys]).getD j 0 :=
    fun j => List.getD_cons_succ
  constructor
  · intro h0
    refine ⟨by rw [hget0]; exact hymin, ?_⟩
    rw [hgetSucc 0]
    rcases Nat.eq_zero_or_pos S.length with hSl | hSl
    · rw [List.getD_append_right _ _ _ _ (by omega)]
      simpa [hSl] using hymax
    · rw [List.getD_append _ _ _ _ hSl]
      have := (lt_binOfCuts_iff hsorted hSl (y := y)).not
      rw [hbin] at h0
      rw [h0] at this
      exact le_of_not_lt (this.mp (by omega))
  · intro h1
    rw [hbin] at h1 ⊢
    constructor
    · rw [show binOfCuts S y = (binOfCuts S y - 1) + 1 by omega, hgetSucc]
      rw [List.getD_append _ _ _ _ (by omega)]
      exact (lt_binOfCuts_iff hsorted (by omega)).mp (by omega)
    · rw [hgetSucc]
      rcases Nat.lt_or_ge (binOfCuts S y) S.length with hlt | hge
      · rw [List.getD_append _ _ _ _ hlt]
        exact le_of_not_lt ((lt_binOfCuts_iff hsorted hlt).not.mp (by omega))
      · rw [List.getD_append_right _ _ _ _ hge]
        have : binOfCuts S y = S.length := le_antisymm hble hge
        simpa [this] using hymax

/-! ## Partitions into contiguous classes, and the Fisher–Jenks minimum -/

theorem partsK_sound {k : ℕ} {l : List ℚ} {ps : List (List ℚ)} (h : ps ∈ partsK k l) :
    ps.length = k ∧ ps.flatten = l := by
  induction k generalizing l ps with
  | zero =>
    unfold partsK at h
    by_cases hl : l.isEmpty
    · rw [if_pos hl] at h
      simp at h
      subst h
      simp [List.isEmpty_iff.mp hl]
    · rw [if_neg hl] at h
      simp at h
  | succ k ih =>
    unfold partsK at h
    obtain ⟨pr, hpr, hps⟩ := List.mem_flatMap.mp h
    obtain ⟨i, _hi, hpri⟩ := List.mem_map.mp hpr
    obtain ⟨qs, hqs, rfl⟩ := List.mem_map.mp hps
    obtain ⟨hlen, hflat⟩ := ih hqs
    subst hpri
    refine ⟨by simpa using hlen, ?_⟩
    rw [List.flatten_cons, hflat]
    exact List.take_append_drop i l

theorem partsK_complete {k : ℕ} {l : List ℚ} {ps : List (List ℚ)}
    (hlen : ps.length = k) (hflat : ps.flatten = l) : ps ∈ partsK k l := by
  induction ps generalizing k l with
  | nil =>
    have hk : k = 0 := by simpa using hlen.symm
    have hl : l = [] := by simpa using hflat.symm
    subst hk; subst hl
    simp [partsK]
  | cons p ps ih =>
    have hk : k = ps.length + 1 := by simpa using hlen.symm
    subst hk
    have hl : l = p ++ ps.flatten := by rw [← hflat, List.flatten_cons]
    subst hl
    unfold partsK
    refine List.mem_flatMap.mpr ⟨(p, ps.flatten), ?_, ?_⟩
    · refine List.mem_map.mpr ⟨p.length, ?_, ?_⟩
      · rw [List.mem_range, List.length_append]
        omega
      · rw [List.take_left, List.drop_left]
    · exact List.mem_map.mpr ⟨ps, ih rfl rfl, rfl⟩

theorem argminBy_isSome {α : Type} {f : α → ℚ} {l : List α} (h : l ≠ []) :
    (argminBy f l).isSome := by
  cases l with
  | nil => exact absurd rfl h
  | cons x l =>
    cases hrec : argminBy f l with
    | none => simp [argminBy, hrec]
    | some b =>
      by_cases hle : f x ≤ f b
      · simp [argminBy, hrec, hle]
      · simp [argminBy, hrec, hle]

theorem argminBy_mem {α : Type} {f : α → ℚ} {l : List α} {a : α}
    (h : argminBy f l = some a) : a ∈ l := by
  induction l generalizing a with
  | nil => simp [argminBy] at h
  | cons x l ih =>
    cases hrec : argminBy f l with
    | none =>
      simp [argminBy, hrec] at h
      simp [← h]
    | some b =>
      by_cases hle : f x ≤ f b
      · simp [argminBy, hrec, hle] at h
        simp [← h]
      · simp [argminBy, hrec, hle] at h
        subst h
        exact List.mem_cons_of_mem _ (ih hrec)

theorem argminBy_le {α : Type} {f : α → ℚ} {l : List α} {a : α}
    (h : argminBy f l = some a) : ∀ x ∈ l, f a ≤ f x := by
  induction l generalizing a with
  | nil => simp [argminBy] at h
  | cons x l ih =>
    intro z hz
    cases hrec : argminBy f l with
    | none =>
      have hl : l = [] := by
        cases l with
        | nil => rfl
        | cons w l' =>
          have hs := argminBy_isSome (f := f) (l := w :: l') (List.cons_ne_nil w l')
          rw [hrec] at hs
          simp at hs
      subst hl
      simp [argminBy] at h
      subst h
      rcases List.mem_cons.mp hz with rfl | hzl
      · exact le_refl _
      · simp at hzl
    | some b =>
      by_cases hle : f x ≤ f b
      · simp [argminBy, hrec, hle] at h
        subst h
        rcases List.mem_cons.mp hz with rfl | hzl
        · exact le_refl _
        · exact le_trans hle (ih hrec z hzl)
      · simp [argminBy, hrec, hle] at h
        subst h
        rcases List.mem_cons.mp hz with rfl | hzl
        · exact le_of_lt (lt_of_not_le hle)
        · exact ih hrec z hzl

theorem partsK_ne_nil {k : ℕ} (hk : 1 ≤ k) (l : List ℚ) : partsK k l ≠ [] := by
  have hmem : (l :: List.replicate (k - 1) ([] : List ℚ)) ∈ partsK k l := by
    refine partsK_complete ?_ ?_
    · simp only [List.length_cons, List.length_replicate]
      omega
    · rw [List.flatten_cons]
      have : (List.replicate (k - 1) ([] : List ℚ)).flatten = [] := by
        induction k - 1 with
        | zero => rfl
        | succ m ihm => rw [List.replicate_succ, List.flatten_cons, List.nil_append]; exact ihm
      rw [this, List.append_nil]
  exact List.ne_nil_of_mem hmem

theorem fjParts_spec (ys : List ℚ) {k : ℕ} (hk : 1 ≤ k) :
    fjParts ys k ∈ partsK k (sortQ ys) ∧
      ∀ ps ∈ partsK k (sortQ ys), totalSSD (fjParts ys k) ≤ totalSSD ps := by
  have hne : partsK k (sortQ ys) ≠ [] := partsK_ne_nil hk _
  obtain ⟨a, ha⟩ := Option.isSome_iff_exists.mp (argminBy_isSome (f := totalSSD) hne)
  unfold fjParts
  rw [ha, Option.getD_some]
  exact ⟨argminBy_mem ha, argminBy_le ha⟩

/-! ## Interior cuts of each k-parameterized classifier stay inside the data range -/

theorem eiCuts_bracket {ys : List ℚ} {k : ℕ} (hys : ys ≠ []) (hk : 1 ≤ k) :
    ∀ x ∈ eiCuts ys k, minV ys ≤ x ∧ x ≤ maxV ys := by
  intro x hx
  obtain ⟨i, hi, rfl⟩ := List.mem_map.mp hx
  rw [List.mem_range] at hi
  have hmm : minV ys ≤ maxV ys := minV_le_maxV hys
  have hw : (0 : ℚ) ≤ (maxV ys - minV ys) / k := by
    apply div_nonneg (by linarith)
    exact_mod_cast Nat.zero_le k
  constructor
  · have hc : (0 : ℚ) ≤ ((i + 1 : ℕ) : ℚ) := Nat.cast_nonneg _
    nlinarith
  · have h1 : ((i + 1 : ℕ) : ℚ) ≤ (k : ℚ) := by exact_mod_cast (by omega : i + 1 ≤ k)
    have h2 : ((i + 1 : ℕ) : ℚ) * ((maxV ys - minV ys) / k) ≤
        (k : ℚ) * ((maxV ys - minV ys) / k) := mul_le_mul_of_nonneg_right h1 hw
    have hk0 : (k : ℚ) ≠ 0 := Nat.cast_ne_zero.mpr (by omega)
    have h3 : (k : ℚ) * ((maxV ys - minV ys) / k) = maxV ys - minV ys := by
      field_simp
    linarith

theorem quantile_index_lt {n a b : ℕ} (hn : 1 ≤ n) (hab : a ≤ b) :
    (a * n + b - 1) / b - 1 < n := by
  rcases Nat.eq_zero_or_pos b with rfl | hb
  · simpa [Nat.div_zero] using hn
  · have h1 : a * n + b - 1 ≤ (b - 1) + b * n := by
      have := Nat.mul_le_mul_right n hab
      omega
    have h2 : (a * n + b - 1) / b ≤ ((b - 1) + b * n) / b := Nat.div_le_div_right h1
    rw [Nat.add_mul_div_left _ _ hb, Nat.div_eq_of_lt (show b - 1 < b by omega)] at h2
    omega

theorem quantile_mem {ys : List ℚ} {a b : ℕ} (hys : ys ≠ []) (hab : a ≤ b) :
    quantile ys a b ∈ ys := by
  have hn : 1 ≤ (sortQ ys).length := by
    rw [length_sortQ]
    exact List.length_pos.mpr hys
  exact mem_sortQ.mp (getD_mem (quantile_index_lt hn hab))

theorem qCuts_bracket {ys : List ℚ} {k : ℕ} (hys : ys ≠ []) :
    ∀ x ∈ qCuts ys k, minV ys ≤ x ∧ x ≤ maxV ys := by
  intro x hx
  obtain ⟨i, hi, rfl⟩ := List.mem_map.mp hx
  rw [List.mem_range] at hi
  have hm : quantile ys (i + 1) k ∈ ys := quantile_mem hys (by omega)
  exact ⟨minV_le_of_mem hm, le_maxV_of_mem hm⟩

theorem mbCuts_bracket {ys : List ℚ} {k : ℕ} :
    ∀ x ∈ mbCuts ys k, minV ys ≤ x ∧ x ≤ maxV ys := by
  intro x hx
  obtain ⟨p, hp, rfl⟩ := List.mem_map.mp hx
  have hp2 : p ∈ gapMidpoints ys :=
    (List.mem_insertionSort _).mp (List.take_subset _ _ hp)
  unfold gapMidpoints at hp2
  obtain ⟨q, hq, hpq⟩ := List.mem_map.mp hp2
  obtain ⟨hq1, hq2⟩ := List.of_mem_zip hq
  have hy1 : q.1 ∈ ys :=
    List.mem_dedup.mp ((List.mem_insertionSort _).mp hq1)
  have hy2 : q.2 ∈ ys :=
    List.mem_dedup.mp ((List.mem_insertionSort _).mp (List.mem_of_mem_tail hq2))
  have hb1 := minV_le_of_mem hy1
  have hb2 := minV_le_of_mem hy2
  have hc1 := le_maxV_of_mem hy1
  have hc2 := le_maxV_of_mem hy2
  rw [← hpq]
  constructor
  · show minV ys ≤ (q.1 + q.2) / 2
    linarith
  · show (q.1 + q.2) / 2 ≤ maxV ys
    linarith

theorem fjCuts_bracket {ys : List ℚ} {k : ℕ} (hk : 1 ≤ k) :
    ∀ x ∈ fjCuts ys k, minV ys ≤ x ∧ x ≤ maxV ys := by
  intro x hx
  unfold fjCuts at hx
  obtain ⟨p, hp, hxp⟩ := List.mem_flatMap.mp hx
  have hpmem : p ∈ fjParts ys k := List.dropLast_subset _ hp
  have hxp2 : x ∈ p := by
    cases hgl : p.getLast? with
    | none => rw [hgl] at hxp; simp at hxp
    | some v =>
      rw [hgl] at hxp
      simp at hxp
      subst hxp
      exact List.mem_of_mem_getLast? hgl
  have hflat : (fjParts ys k).flatten = sortQ ys := (partsK_sound (fjParts_spec ys hk).1).2
  have hxs : x ∈ sortQ ys := hflat ▸ List.mem_flatten.mpr ⟨p, hpmem, hxp2⟩
  have hxy : x ∈ ys := mem_sortQ.mp hxs
  exact ⟨minV_le_of_mem hxy, le_maxV_of_mem hxy⟩

/-! ## Claim C2: the boundary-inclusivity policy -/

/-- C2 (counterexample): The inclusivity policy does not hold for every
classifier variant: for the Box Plot classifier on
`[0,10,10,10,10,10,10,10]`, the observation `0` is assigned class `0`
(a low outlier), yet the lowest listed boundary `c_0 = Q1 - 1.5*IQR = 10`
does not satisfy `c_0 ≤ 0`: the outlier class is open-ended below its first
boundary. -/
theorem c2_policy_counterexample :
    (Box_Plot [0, 10, 10, 10, 10, 10, 10, 10]).yb.getD 0 0 = 0 ∧
    ¬ ((Box_Plot [0, 10, 10, 10, 10, 10, 10, 10]).boundaries.getD 0 0 ≤ (0 : ℚ)) :=
  of_decide_eq_true (by with_unfolding_all rfl)

/-- C2 (amended): For the k-parameterized classifiers (Equal Interval,
Quantiles, Maximum Breaks, Fisher–Jenks), whose boundary lists are bracketed
by the data minimum and maximum, every observation `y` assigned to class `j`
satisfies the boundary-inclusivity policy `c_j < y ≤ c_(j+1)`, with the lowest
class closed on both ends (`c_0 ≤ y ≤ c_1`); the open-ended extreme classes of
the outlier classifiers (Box Plot, Std-Mean) are exempt. -/
theorem c2_boundary_policy (ys : List ℚ) (k : ℕ) (y : ℚ) (hy : y ∈ ys) (hk : 1 ≤ k) :
    policyHolds (Equal_Interval ys k).boundaries y ∧
    policyHolds (Quantiles ys k).boundaries y ∧
    policyHolds (Maximum_Breaks ys k).boundaries y ∧
    policyHolds (Fisher_Jenks ys k).boundaries y := by
  have hys : ys ≠ [] := List.ne_nil_of_mem hy
  have hmin := minV_le_of_mem hy
  have hmax := le_maxV_of_mem hy
  exact ⟨policy_mkBounds (eiCuts_bracket hys hk) hmin hmax,
    policy_mkBounds (qCuts_bracket hys) hmin hmax,
    policy_mkBounds mbCuts_bracket hmin hmax,
    policy_mkBounds (fjCuts_bracket hk) hmin hmax⟩

/-- C2 (witness): The amended policy theorem applied at the concrete
input `ys = [3, 1, 2]`, `k = 2`, `y = 2`. -/
theorem c2_boundary_policy_witness :
    policyHolds (Equal_Interval [3, 1, 2] 2).boundaries 2 ∧
    policyHolds (Quantiles [3, 1, 2] 2).boundaries 2 ∧
    policyHolds (Maximum_Breaks [3, 1, 2] 2).boundaries 2 ∧
    policyHolds (Fisher_Jenks [3, 1, 2] 2).boundaries 2 :=
  c2_boundary_policy [3, 1, 2] 2 2 (by with_unfolding_all decide) (by decide)

/-! ## Claim C3: the Equal Interval scenario on 1..10 with k = 5 -/

/-- C3 (counterexample): On `[1,…,10]` with `k = 5` the Equal Interval
bin assignment is not the `[0,0,1,1,2,3,3,4,4,4]` stated in the spec: under
the stated inclusivity rule the value `6` satisfies `6 ≤ 6.4`, so it falls in
bin `2`, not bin `3` (and `8 ≤ 8.2` falls in bin `3`, not `4`). -/
theorem c3_scenario_counterexample :
    (Equal_Interval [1, 2, 3, 4, 5, 6, 7, 8, 9, 10] 5).yb ≠ [0, 0, 1, 1, 2, 3, 3, 4, 4, 4] :=
  of_decide_eq_true (by with_unfolding_all rfl)

/-- C3 (amended): On `[1,…,10]` with `k = 5` Equal Interval produces
boundaries `[1, 2.8, 4.6, 6.4, 8.2, 10]`, and under the stated inclusivity
rule the bin assignment is `[0,0,1,1,2,2,3,3,4,4]`. -/
theorem c3_equal_interval_scenario :
    (Equal_Interval [1, 2, 3, 4, 5, 6, 7, 8, 9, 10] 5).boundaries =
      [1, 2.8, 4.6, 6.4, 8.2, 10] ∧
    (Equal_Interval [1, 2, 3, 4, 5, 6, 7, 8, 9, 10] 5).yb = [0, 0, 1, 1, 2, 2, 3, 3, 4, 4] :=
  of_decide_eq_true (by with_unfolding_all rfl)

/-! ## Claim C9: Quantiles with fewer unique values than k -/

/-- C9: Quantiles with `k = 5` on `[5,5,5,5,5,100]` (only 2 unique
values) does not raise an error: `classify` returns a result, its boundary
list has duplicated entries, and bins `1`, `2`, `3` are empty — unequal bin
population is the defined behavior. -/
theorem c9_quantiles_degenerate :
    classify .quantiles [5, 5, 5, 5, 5, 100] 5 = .ok (Quantiles [5, 5, 5, 5, 5, 100] 5) ∧
    (Quantiles [5, 5, 5, 5, 5, 100] 5).boundaries = [5, 5, 5, 5, 5, 100] ∧
    ¬ (Quantiles [5, 5, 5, 5, 5, 100] 5).boundaries.Nodup ∧
    (Quantiles [5, 5, 5, 5, 5, 100] 5).yb.countP (fun b => b = 1) = 0 ∧
    (Quantiles [5, 5, 5, 5, 5, 100] 5).yb.countP (fun b => b = 2) = 0 ∧
    (Quantiles [5, 5, 5, 5, 5, 100] 5).yb.countP (fun b => b = 3) = 0 :=
  ⟨by with_unfolding_all rfl, of_decide_eq_true (by with_unfolding_all rfl)⟩

/-! ## Claim C8: the Equal Interval boundary formula -/

theorem sorted_map_range_of_mono {f : ℕ → ℚ} {m : ℕ}
    (hf : ∀ i j, i ≤ j → j < m → f i ≤ f j) :
    ((List.range m).map f).Sorted (· ≤ ·) := by
  rw [List.Sorted, List.pairwise_iff_getElem]
  intro i j hi hj hij
  simp only [List.getElem_map, List.getElem_range]
  have hjm : j < m := by simpa using hj
  exact hf _ _ (le_of_lt hij) hjm

theorem getD_map_range {f : ℕ → ℚ} {m i : ℕ} (hi : i < m) :
    ((List.range m).map f).getD i 0 = f i := by
  have hlen : i < ((List.range m).map f).length := by simpa using hi
  rw [List.getD_eq_getElem _ 0 hlen]
  simp

theorem eiCuts_sorted (ys : List ℚ) {k : ℕ} (hys : ys ≠ []) :
    (eiCuts ys k).Sorted (· ≤ ·) := by
  apply sorted_map_range_of_mono
  intro i j hij _hj
  have hw : (0 : ℚ) ≤ (maxV ys - minV ys) / k := by
    apply div_nonneg (by linarith [minV_le_maxV hys])
    exact_mod_cast Nat.zero_le k
  have : ((i + 1 : ℕ) : ℚ) ≤ ((j + 1 : ℕ) : ℚ) := by exact_mod_cast Nat.succ_le_succ hij
  nlinarith

theorem ei_mul_k_width {ys : List ℚ} {k : ℕ} (hk : 1 ≤ k) :
    (k : ℚ) * ((maxV ys - minV ys) / k) = maxV ys - minV ys := by
  have hk0 : (k : ℚ) ≠ 0 := Nat.cast_ne_zero.mpr (by omega)
  field_simp

/-- C8: For a non-empty observation array and valid `k`, Equal Interval
produces boundaries `min + i*(max-min)/k` for `i ∈ [0,k]`, all bins have the
equal width `(max-min)/k`, and in the degenerate case `max = min` every
observation is assigned bin `0` (the width is the total rational `0`, with no
division error possible). -/
theorem c8_equal_interval (ys : List ℚ) (k : ℕ) (hys : ys ≠ []) (hk : 1 ≤ k)
    (_hkn : k ≤ ys.length) :
    (Equal_Interval ys k).boundaries =
      (List.range (k + 1)).map (fun i => minV ys + (i : ℕ) * ((maxV ys - minV ys) / k)) ∧
    (∀ i < k, (Equal_Interval ys k).boundaries.getD (i + 1) 0 -
      (Equal_Interval ys k).boundaries.getD i 0 = (maxV ys - minV ys) / k) ∧
    (maxV ys = minV ys → ∀ b ∈ (Equal_Interval ys k).yb, b = 0) := by
  set w := (maxV ys - minV ys) / k with hw
  have hbnd : (Equal_Interval ys k).boundaries = minV ys :: (eiCuts ys k ++ [maxV ys]) := by
    show mkBounds ys (eiCuts ys k) = _
    unfold mkBounds
    rw [(eiCuts_sorted ys hys).insertionSort_eq]
    rfl
  have hformula : (Equal_Interval ys k).boundaries =
      (List.range (k + 1)).map (fun i => minV ys + (i : ℕ) * w) := by
    rw [hbnd]
    conv_rhs => rw [List.range_succ_eq_map, List.map_cons, List.map_map]
    congr 1
    · simp
    · conv_rhs => rw [show k = (k - 1) + 1 by omega, List.range_succ, List.map_append]
      congr 1
      simp only [List.map_cons, List.map_nil, Function.comp_apply]
      congr 1
      have hc : ((Nat.succ (k - 1) : ℕ) : ℚ) = (k : ℚ) := by
        congr 1
        omega
      rw [Nat.succ_eq_add_one] at hc
      rw [hc, hw, ei_mul_k_width hk]
      ring
  refine ⟨hformula, ?_, ?_⟩
  · intro i hi
    rw [hformula, getD_map_range (by omega), getD_map_range (by omega)]
    push_cast
    ring
  · intro hdeg b hb
    obtain ⟨y, hy, rfl⟩ := List.mem_map.mp hb
    show binOf (mkBounds ys (eiCuts ys k)) y = 0
    rw [binOf_mkBounds]
    apply List.countP_eq_zero.mpr
    intro c hc
    simp only [decide_eq_true_eq]
    have hcmem : c ∈ eiCuts ys k := (List.mem_insertionSort _).mp hc
    obtain ⟨i, _hi, rfl⟩ := List.mem_map.mp hcmem
    have hy' : y ≤ maxV ys := le_maxV_of_mem hy
    rw [hdeg]
    simp only [sub_self, zero_div, mul_zero, add_zero]
    intro hlt
    rw [hdeg] at hy'
    exact absurd (lt_of_le_of_lt hy' hlt) (lt_irrefl _)

/-- C8 (witness): The Equal Interval theorem applied at `ys = [1, 2, 4]`,
`k = 2`. -/
theorem c8_equal_interval_witness :
    (Equal_Interval [1, 2, 4] 2).boundaries =
      (List.range 3).map (fun i => minV [1, 2, 4] + (i : ℕ) * ((maxV [1, 2, 4] - minV [1, 2, 4]) / 2)) ∧
    (∀ i < 2, (Equal_Interval [1, 2, 4] 2).boundaries.getD (i + 1) 0 -
      (Equal_Interval [1, 2, 4] 2).boundaries.getD i 0 = (maxV [1, 2, 4] - minV [1, 2, 4]) / 2) ∧
    (maxV [1, 2, 4] = minV [1, 2, 4] → ∀ b ∈ (Equal_Interval [1, 2, 4] 2).yb, b = 0) :=
  c8_equal_interval [1, 2, 4] 2 (by decide) (by decide) (by decide)

/-! ## Claim C5: Box Plot boundaries and outlier flags -/

theorem q1_le_median {ys : List ℚ} (hys : ys ≠ []) : quantile ys 1 4 ≤ median ys := by
  have hn : 1 ≤ (sortQ ys).length := by
    rw [length_sortQ]
    exact List.length_pos.mpr hys
  have h1 : (sortQ ys).getD ((1 * (sortQ ys).length + 4 - 1) / 4 - 1) 0 ≤
      (sortQ ys).getD (((sortQ ys).length - 1) / 2) 0 :=
    sorted_getD_le (sortQ_sorted ys) (by omega) (by omega)
  have h2 : (sortQ ys).getD (((sortQ ys).length - 1) / 2) 0 ≤
      (sortQ ys).getD ((sortQ ys).length / 2) 0 :=
    sorted_getD_le (sortQ_sorted ys) (by omega) (by omega)
  show (sortQ ys).getD ((1 * (sortQ ys).length + 4 - 1) / 4 - 1) 0 ≤
    ((sortQ ys).getD (((sortQ ys).length - 1) / 2) 0 +
      (sortQ ys).getD ((sortQ ys).length / 2) 0) / 2
  linarith

theorem median_le_q3 {ys : List ℚ} (hys : ys ≠ []) : median ys ≤ quantile ys 3 4 := by
  have hn : 1 ≤ (sortQ ys).length := by
    rw [length_sortQ]
    exact List.length_pos.mpr hys
  have h1 : (sortQ ys).getD (((sortQ ys).length - 1) / 2) 0 ≤
      (sortQ ys).getD ((sortQ ys).length / 2) 0 :=
    sorted_getD_le (sortQ_sorted ys) (by omega) (by omega)
  have h2 : (sortQ ys).getD ((sortQ ys).length / 2) 0 ≤
      (sortQ ys).getD ((3 * (sortQ ys).length + 4 - 1) / 4 - 1) 0 :=
    sorted_getD_le (sortQ_sorted ys) (by omega) (by omega)
  show ((sortQ ys).getD (((sortQ ys).length - 1) / 2) 0 +
      (sortQ ys).getD ((sortQ ys).length / 2) 0) / 2 ≤
    (sortQ ys).getD ((3 * (sortQ ys).length + 4 - 1) / 4 - 1) 0
  linarith

theorem q1_le_q3 {ys : List ℚ} (hys : ys ≠ []) : quantile ys 1 4 ≤ quantile ys 3 4 :=
  le_trans (q1_le_median hys) (median_le_q3 hys)

/-- C5: For a non-empty observation array, the Box Plot classifier with
the default fence multiplier `h = 1.5` produces exactly the boundaries
`Q1 - 1.5*IQR, Q1, median, Q3, Q3 + 1.5*IQR`, yields six classes, and flags
values beyond the fences as outliers (a value below the low fence falls in
class `0`, a value above the high fence in class `5`). -/
theorem c5_box_plot (ys : List ℚ) (hys : ys ≠ []) :
    (Box_Plot ys).boundaries =
      [quantile ys 1 4 - 3 / 2 * (quantile ys 3 4 - quantile ys 1 4), quantile ys 1 4,
        median ys, quantile ys 3 4,
        quantile ys 3 4 + 3 / 2 * (quantile ys 3 4 - quantile ys 1 4)] ∧
    (Box_Plot ys).k = 6 ∧
    (∀ p ∈ ys.zip (Box_Plot ys).yb,
      (p.1 < quantile ys 1 4 - 3 / 2 * (quantile ys 3 4 - quantile ys 1 4) → p.2 = 0) ∧
      (quantile ys 3 4 + 3 / 2 * (quantile ys 3 4 - quantile ys 1 4) < p.1 → p.2 = 5)) := by
  have hq1m := q1_le_median hys
  have hmq3 := median_le_q3 hys
  have hiqr : 0 ≤ quantile ys 3 4 - quantile ys 1 4 := by linarith
  refine ⟨rfl, rfl, ?_⟩
  intro p hp
  have hzip : ∀ (l : List ℚ) (f : ℚ → ℕ), l.zip (l.map f) = l.map (fun y => (y, f y)) := by
    intro l f
    induction l with
    | nil => rfl
    | cons a t ih => simp [ih]
  rw [show (Box_Plot ys).yb = ys.map (fun y => binOfCuts (boxCuts ys (3 / 2)) y) from rfl,
    hzip] at hp
  obtain ⟨y, _hy, rfl⟩ := List.mem_map.mp hp
  constructor
  · intro hlow
    apply List.countP_eq_zero.mpr
    intro c hc
    simp only [decide_eq_true_eq]
    simp only [boxCuts, List.mem_cons, List.not_mem_nil, or_false] at hc
    rcases hc with rfl | rfl | rfl | rfl | rfl <;> linarith
  · intro hhigh
    show binOfCuts (boxCuts ys (3 / 2)) y = 5
    rw [show (5 : ℕ) = (boxCuts ys (3 / 2)).length from rfl]
    apply List.countP_eq_length.mpr
    intro c hc
    simp only [decide_eq_true_eq]
    simp only [boxCuts, List.mem_cons, List.not_mem_nil, or_false] at hc
    rcases hc with rfl | rfl | rfl | rfl | rfl <;> linarith

/-- C5 (witness): The Box Plot theorem applied at `ys = [1, 2, 3, 4]`. -/
theorem c5_box_plot_witness :
    (Box_Plot [1, 2, 3, 4]).boundaries =
      [quantile [1, 2, 3, 4] 1 4 - 3 / 2 * (quantile [1, 2, 3, 4] 3 4 - quantile [1, 2, 3, 4] 1 4),
        quantile [1, 2, 3, 4] 1 4, median [1, 2, 3, 4], quantile [1, 2, 3, 4] 3 4,
        quantile [1, 2, 3, 4] 3 4 + 3 / 2 * (quantile [1, 2, 3, 4] 3 4 - quantile [1, 2, 3, 4] 1 4)] ∧
    (Box_Plot [1, 2, 3, 4]).k = 6 ∧
    (∀ p ∈ ([1, 2, 3, 4] : List ℚ).zip (Box_Plot [1, 2, 3, 4]).yb,
      (p.1 < quantile [1, 2, 3, 4] 1 4 -
        3 / 2 * (quantile [1, 2, 3, 4] 3 4 - quantile [1, 2, 3, 4] 1 4) → p.2 = 0) ∧
      (quantile [1, 2, 3, 4] 3 4 +
        3 / 2 * (quantile [1, 2, 3, 4] 3 4 - quantile [1, 2, 3, 4] 1 4) < p.1 → p.2 = 5)) :=
  c5_box_plot [1, 2, 3, 4] (by decide)

/-! ## Claim C10: Box Plot bins stay in `[0,6)` and the labeler never fails -/

/-- C10: Every bin assigned by the Box Plot classifier lies in `[0,6)`
(five cuts can have at most five values below a given observation), so the
Outlier Labeler's direct indexing into the six-element label list always
succeeds on Box Plot output: its `IndexError`-equivalent branch (`none`) is
unreachable. -/
theorem c10_box_plot_labels (ys : List ℚ) :
    (∀ b ∈ (Box_Plot ys).yb, b < 6) ∧ (∀ o ∈ labelAll (Box_Plot ys), o.isSome) := by
  have hbin : ∀ b ∈ (Box_Plot ys).yb, b < 6 := by
    intro b hb
    obtain ⟨y, _hy, rfl⟩ := List.mem_map.mp hb
    have hle := binOfCuts_le_length (boxCuts ys (3 / 2)) y
    have h5 : (boxCuts ys (3 / 2)).length = 5 := rfl
    omega
  refine ⟨hbin, ?_⟩
  intro o ho
  obtain ⟨b, hb, rfl⟩ := List.mem_map.mp ho
  have hb6 : b < 6 := hbin b hb
  have hlen : b < outlierLabels.length := by
    rw [show outlierLabels.length = 6 from rfl]
    exact hb6
  rw [List.get?_eq_getElem?, List.getElem?_eq_getElem hlen]
  rfl

/-- C10 (witness): The label-safety theorem applied to the Box Plot
classification of `[1, 2]`, at its first bin and first label. -/
theorem c10_box_plot_labels_witness :
    (Box_Plot [1, 2]).yb.getD 0 0 < 6 ∧
    ((labelAll (Box_Plot [1, 2])).getD 0 none).isSome :=
  ⟨(c10_box_plot_labels [1, 2]).1 _ (by with_unfolding_all decide),
   (c10_box_plot_labels [1, 2]).2 _ (by with_unfolding_all decide)⟩

/-! ## Claim C7: eager input validation in classify -/

/-- C7: For every k-parameterized classifier variant, `classify` fails
with `EmptyInputError` on an empty input array; on a non-empty array it fails
with `InvalidKError` exactly when `k < 1` or `k` exceeds the number of
observations; and on valid input it returns the classification, whose
recorded class count is the requested `k` (no silent clamping).  `classify`
is a pure function, so the same input always yields the same error. -/
theorem c7_classify_errors (c : KClassifier) (ys : List ℚ) (k : ℕ) :
    (ys = [] → classify c ys k = .error .emptyInputError) ∧
    (ys ≠ [] → (classify c ys k = .error .invalidKError ↔ (k < 1 ∨ ys.length < k))) ∧
    (ys ≠ [] → 1 ≤ k → k ≤ ys.length →
      classify c ys k = .ok (runK c ys k) ∧ (runK c ys k).k = k) := by
  refine ⟨?_, ?_, ?_⟩
  · intro h
    unfold classify
    rw [if_pos h]
  · intro h
    constructor
    · intro herr
      by_contra hcon
      push_neg at hcon
      unfold classify at herr
      rw [if_neg h, if_neg (show ¬(k < 1 ∨ ys.length < k) by omega)] at herr
      exact Except.noConfusion herr
    · intro hor
      unfold classify
      rw [if_neg h, if_pos hor]
  · intro h hk hkn
    refine ⟨?_, ?_⟩
    · unfold classify
      rw [if_neg h, if_neg (show ¬(k < 1 ∨ ys.length < k) by omega)]
    · cases c <;> rfl

/-- C7 (witness): The validation theorem applied at concrete inputs:
empty array, `k` above the observation count, and a valid call. -/
theorem c7_classify_errors_witness :
    classify .equalInterval ([] : List ℚ) 1 = .error .emptyInputError ∧
    classify .quantiles [1, 2] 5 = .error .invalidKError ∧
    classify .fisherJenks [1, 2] 2 = .ok (runK .fisherJenks [1, 2] 2) ∧
    (runK .fisherJenks [1, 2] 2).k = 2 :=
  ⟨(c7_classify_errors .equalInterval [] 1).1 rfl,
   ((c7_classify_errors .quantiles [1, 2] 5).2.1 (by decide)).mpr (by decide),
   (c7_classify_errors .fisherJenks [1, 2] 2).2.2 (by decide) (by decide) (by decide)⟩

/-! ## Claim C6: the Head/Tail Breaks recursion -/

theorem headTailCuts_length_le :
    ∀ (n : ℕ) (ys : List ℚ), ys.length ≤ n → ys ≠ [] →
      (headTailCuts ys).length ≤ ys.length := by
  intro n
  induction n with
  | zero =>
    intro ys hlen hne
    cases ys with
    | nil => exact absurd rfl hne
    | cons a t => simp at hlen
  | succ n ih =>
    intro ys hlen hne
    rw [headTailCuts]
    split
    · next h =>
      have h1 := h.1
      have h2 := h.2
      have hne2 : ys.filter (fun y => mean ys < y) ≠ [] :=
        List.ne_nil_of_length_pos (by omega)
      have hrec := ih (ys.filter (fun y => mean ys < y)) (by omega) hne2
      simp only [List.length_cons]
      omega
    · next h =>
      have hpos : 1 ≤ ys.length := List.length_pos.mpr hne
      simp only [List.length_cons, List.length_nil]
      omega

/-- C6: The Head/Tail Breaks recursion terminates on every non-empty
array, with the number of cut means (hence the derived class count) bounded by
the input size: the step equation shows each level cuts at the mean,
partitions the current set into `≤ mean` and `> mean`, and recurses only into
the tail (`> mean`) subset, exactly while that subset has more than one
element and is smaller than half the current set; the derived `k` is the
recursion depth plus one, not a caller-supplied parameter. -/
theorem c6_headtail_breaks (ys : List ℚ) (hys : ys ≠ []) :
    (headTailCuts ys =
      if 1 < (ys.filter (fun y => mean ys < y)).length ∧
          2 * (ys.filter (fun y => mean ys < y)).length < ys.length then
        mean ys :: headTailCuts (ys.filter (fun y => mean ys < y))
      else [mean ys]) ∧
    1 ≤ (headTailCuts ys).length ∧
    (headTailCuts ys).length ≤ ys.length ∧
    (HeadTail_Breaks ys).k = (headTailCuts ys).length + 1 := by
  refine ⟨?_, ?_, headTailCuts_length_le ys.length ys (le_refl _) hys, rfl⟩
  · rw [headTailCuts]
    split <;> simp [*]
  · rw [headTailCuts]
    split <;> simp

/-- C6 (witness): The Head/Tail theorem applied at `ys = [1, 1, 1, 10]`. -/
theorem c6_headtail_breaks_witness :
    (headTailCuts [1, 1, 1, 10] =
      if 1 < (([1, 1, 1, 10] : List ℚ).filter (fun y => mean [1, 1, 1, 10] < y)).length ∧
          2 * (([1, 1, 1, 10] : List ℚ).filter (fun y => mean [1, 1, 1, 10] < y)).length <
            ([1, 1, 1, 10] : List ℚ).length then
        mean [1, 1, 1, 10] ::
          headTailCuts (([1, 1, 1, 10] : List ℚ).filter (fun y => mean [1, 1, 1, 10] < y))
      else [mean [1, 1, 1, 10]]) ∧
    1 ≤ (headTailCuts [1, 1, 1, 10]).length ∧
    (headTailCuts [1, 1, 1, 10]).length ≤ ([1, 1, 1, 10] : List ℚ).length ∧
    (HeadTail_Breaks [1, 1, 1, 10]).k = (headTailCuts [1, 1, 1, 10]).length + 1 :=
  c6_headtail_breaks [1, 1, 1, 10] (by decide)

/-! ## Claim C4: Quantiles bin balance

The one-based rank of the `j/k`-th quantile in `n` sorted values is
`(j*n + k - 1) / k` (the natural-number ceiling of `j*n/k`); the lemmas below
work with that expression directly. -/

theorem rank_mono {n k j j' : ℕ} (h : j ≤ j') :
    (j * n + k - 1) / k ≤ (j' * n + k - 1) / k := by
  apply Nat.div_le_div_right
  have := Nat.mul_le_mul_right n h
  omega

theorem rank_zero {n k : ℕ} (hk : 1 ≤ k) : (0 * n + k - 1) / k = 0 := by
  rw [Nat.zero_mul, Nat.zero_add]
  exact Nat.div_eq_of_lt (by omega)

theorem rank_k {n k : ℕ} (hk : 1 ≤ k) : (k * n + k - 1) / k = n := by
  have h : k * n + k - 1 = (k - 1) + k * n := by
    have : 1 ≤ k * n + k := by nlinarith
    omega
  rw [h, Nat.add_mul_div_left _ _ (show 0 < k by omega),
    Nat.div_eq_of_lt (show k - 1 < k by omega)]
  omega

theorem rank_pos {n k j : ℕ} (hk : 1 ≤ k) (hn : 1 ≤ n) (hj : 1 ≤ j) :
    1 ≤ (j * n + k - 1) / k := by
  rw [Nat.le_div_iff_mul_le (show 0 < k by omega)]
  have : 1 * 1 ≤ j * n := Nat.mul_le_mul hj hn
  omega

theorem rank_le_n {n k j : ℕ} (hk : 1 ≤ k) (hj : j ≤ k) : (j * n + k - 1) / k ≤ n := by
  have h1 : j * n + k - 1 ≤ k * n + k - 1 := by
    have := Nat.mul_le_mul_right n hj
    omega
  calc (j * n + k - 1) / k ≤ (k * n + k - 1) / k := Nat.div_le_div_right h1
    _ = n := rank_k hk

theorem rank_diff {n k : ℕ} (hk : 1 ≤ k) (j : ℕ) :
    ((j + 1) * n + k - 1) / k - (j * n + k - 1) / k = n / k ∨
    ((j + 1) * n + k - 1) / k - (j * n + k - 1) / k = (n + k - 1) / k := by
  have ha2 : (j + 1) * n + k - 1 = (j * n + k - 1) + n := by
    have : 1 ≤ j * n + k := by nlinarith
    have : (j + 1) * n = j * n + n := by ring
    omega
  rw [ha2]
  have hdm := Nat.div_add_mod (j * n + k - 1) k
  have hmod : (j * n + k - 1) % k < k := Nat.mod_lt _ (by omega)
  have h1 : ((j * n + k - 1) + n) / k =
      (j * n + k - 1) / k + ((j * n + k - 1) % k + n) / k := by
    conv_lhs => rw [← hdm]
    rw [show k * ((j * n + k - 1) / k) + (j * n + k - 1) % k + n =
      ((j * n + k - 1) % k + n) + k * ((j * n + k - 1) / k) by ring]
    rw [Nat.add_mul_div_left _ _ (show 0 < k by omega)]
    omega
  have h2 : n / k ≤ ((j * n + k - 1) % k + n) / k := Nat.div_le_div_right (by omega)
  have h3 : ((j * n + k - 1) % k + n) / k ≤ (n + k - 1) / k := Nat.div_le_div_right (by omega)
  have h4 : (n + k - 1) / k ≤ n / k + 1 := by
    have h5 : (n + k) / k = n / k + 1 := Nat.add_div_right n (by omega)
    have h6 : (n + k - 1) / k ≤ (n + k) / k := Nat.div_le_div_right (by omega)
    revert h5 h6
    generalize (n + k - 1) / k = B
    generalize n / k = D
    generalize (n + k) / k = F
    intro h5 h6
    omega
  have hsub : ((j * n + k - 1) + n) / k - (j * n + k - 1) / k =
      ((j * n + k - 1) % k + n) / k := by
    rw [h1]
    exact Nat.add_sub_cancel_left _ _
  rw [hsub]
  revert h2 h3 h4
  generalize ((j * n + k - 1) % k + n) / k = C
  generalize n / k = D
  generalize (n + k - 1) / k = E
  intro h2 h3 h4
  omega

theorem count_range_lt (m j : ℕ) :
    (List.range m).countP (fun i => decide (i < j)) = min j m := by
  induction m with
  | zero => simp
  | succ m ih =>
    rw [List.range_succ, List.countP_append, ih, List.countP_singleton]
    by_cases h : m < j
    · rw [if_pos (decide_eq_true h)]
      omega
    · rw [if_neg (by simp only [decide_eq_true_eq]; exact h)]
      omega

theorem count_range_band : ∀ (n a b : ℕ), a ≤ b → b ≤ n →
    (List.range n).countP (fun t => decide (a ≤ t ∧ t < b)) = b - a := by
  intro n
  induction n with
  | zero =>
    intro a b hab hbn
    simp only [List.range_zero, List.countP_nil]
    omega
  | succ n ih =>
    intro a b hab hbn
    rw [List.range_succ, List.countP_append, List.countP_singleton]
    by_cases hb : b ≤ n
    · rw [ih a b hab hb, if_neg (by simp only [decide_eq_true_eq]; omega)]
      omega
    · have hbe : b = n + 1 := by omega
      subst hbe
      by_cases ha : a ≤ n
      · have hcong : (List.range n).countP (fun t => decide (a ≤ t ∧ t < n + 1)) =
            (List.range n).countP (fun t => decide (a ≤ t ∧ t < n)) := by
          apply List.countP_congr
          intro x hx
          rw [List.mem_range] at hx
          simp only [decide_eq_true_eq]
          omega
        rw [hcong, ih a n ha (le_refl n), if_pos (by simp only [decide_eq_true_eq]; omega)]
        omega
      · have hz : (List.range n).countP (fun t => decide (a ≤ t ∧ t < n + 1)) = 0 := by
          apply List.countP_eq_zero.mpr
          intro x hx
          rw [List.mem_range] at hx
          simp only [decide_eq_true_eq]
          omega
        rw [hz, if_neg (by simp only [decide_eq_true_eq]; omega)]
        omega

theorem self_eq_map_getD_range : ∀ (l : List ℚ),
    (List.range l.length).map (fun t => l.getD t 0) = l := by
  intro l
  induction l with
  | nil => rfl
  | cons a t ih =>
    rw [show (a :: t).length = t.length + 1 from rfl, List.range_succ_eq_map,
      List.map_cons, List.map_map]
    have hmap : (List.range t.length).map ((fun x => (a :: t).getD x 0) ∘ Nat.succ) =
        (List.range t.length).map (fun x => t.getD x 0) :=
      List.map_congr_left (fun i _ => rfl)
    rw [hmap, ih]
    rfl

theorem sortQ_sorted_lt {ys : List ℚ} (hnd : ys.Nodup) : (sortQ ys).Sorted (· < ·) := by
  have hnds : (sortQ ys).Nodup := (sortQ_perm ys).nodup_iff.mpr hnd
  rw [List.Sorted, List.pairwise_iff_getElem]
  intro i j hi hj hij
  have hle := List.pairwise_iff_getElem.mp (sortQ_sorted ys) i j hi hj hij
  refine lt_of_le_of_ne hle ?_
  intro he
  exact absurd ((List.Nodup.getElem_inj_iff hnds).mp he) (by omega)

theorem strict_getD_lt_iff {l : List ℚ} (hs : l.Sorted (· < ·)) {a b : ℕ}
    (ha : a < l.length) (hb : b < l.length) : l.getD a 0 < l.getD b 0 ↔ a < b := by
  constructor
  · intro h
    by_contra hab
    push_neg at hab
    rcases eq_or_lt_of_le hab with rfl | hlt
    · exact absurd h (lt_irrefl _)
    · rw [List.getD_eq_getElem l 0 ha, List.getD_eq_getElem l 0 hb] at h
      have := List.pairwise_iff_getElem.mp hs b a hb ha hlt
      exact absurd h (asymm this)
  · intro h
    rw [List.getD_eq_getElem l 0 ha, List.getD_eq_getElem l 0 hb]
    exact List.pairwise_iff_getElem.mp hs a b ha hb h

theorem exists_band {n k : ℕ} (hk : 1 ≤ k) :
    ∀ m t, m ≤ k → t < (m * n + k - 1) / k →
      ∃ j, j < m ∧ (j * n + k - 1) / k ≤ t ∧ t < ((j + 1) * n + k - 1) / k := by
  intro m
  induction m with
  | zero =>
    intro t _ h
    rw [rank_zero hk] at h
    omega
  | succ m ih =>
    intro t hm h
    by_cases hc : (m * n + k - 1) / k ≤ t
    · exact ⟨m, by omega, hc, h⟩
    · obtain ⟨j, h1, h2, h3⟩ := ih t (by omega) (by omega)
      exact ⟨j, by omega, h2, h3⟩

theorem count_eq_of_band {n k j t : ℕ} (hj : j < k)
    (h1 : (j * n + k - 1) / k ≤ t) (h2 : t < ((j + 1) * n + k - 1) / k) :
    (List.range (k - 1)).countP (fun i => decide (((i + 1) * n + k - 1) / k ≤ t)) = j := by
  have hcong : (List.range (k - 1)).countP
        (fun i => decide (((i + 1) * n + k - 1) / k ≤ t)) =
      (List.range (k - 1)).countP (fun i => decide (i < j)) := by
    apply List.countP_congr
    intro i hi
    rw [List.mem_range] at hi
    simp only [decide_eq_true_eq]
    constructor
    · intro hle
      by_contra hij
      push_neg at hij
      have := rank_mono (n := n) (k := k) (show j + 1 ≤ i + 1 by omega)
      omega
    · intro hij
      have := rank_mono (n := n) (k := k) (show i + 1 ≤ j by omega)
      omega
  rw [hcong, count_range_lt]
  omega

theorem cnt_band_iff {n k j t : ℕ} (hk : 1 ≤ k) (hj : j < k) (ht : t < n) :
    (List.range (k - 1)).countP (fun i => decide (((i + 1) * n + k - 1) / k ≤ t)) = j ↔
    ((j * n + k - 1) / k ≤ t ∧ t < ((j + 1) * n + k - 1) / k) := by
  constructor
  · intro hcnt
    have hEk : t < (k * n + k - 1) / k := by
      rw [rank_k hk]
      exact ht
    obtain ⟨m, hm, hm1, hm2⟩ := exists_band hk k t (le_refl k) hEk
    have hc2 := count_eq_of_band hm hm1 hm2
    have hjm : j = m := by omega
    subst hjm
    exact ⟨hm1, hm2⟩
  · intro h
    exact count_eq_of_band hj h.1 h.2

theorem binOf_quantiles_eq {ys : List ℚ} {k t : ℕ} (hnd : ys.Nodup) (hk : 1 ≤ k)
    (ht : t < (sortQ ys).length) :
    binOf (mkBounds ys (qCuts ys k)) ((sortQ ys).getD t 0) =
      (List.range (k - 1)).countP
        (fun i => decide (((i + 1) * (sortQ ys).length + k - 1) / k ≤ t)) := by
  have hn : 1 ≤ (sortQ ys).length := by omega
  rw [binOf_mkBounds]
  unfold binOfCuts
  rw [List.Perm.countP_eq _ (List.perm_insertionSort _ (qCuts ys k))]
  unfold qCuts
  rw [List.countP_map]
  apply List.countP_congr
  intro i hi
  rw [List.mem_range] at hi
  simp only [Function.comp_apply, decide_eq_true_eq]
  have hq : quantile ys (i + 1) k =
      (sortQ ys).getD (((i + 1) * (sortQ ys).length + k - 1) / k - 1) 0 := rfl
  rw [hq]
  have hidx : ((i + 1) * (sortQ ys).length + k - 1) / k - 1 < (sortQ ys).length :=
    quantile_index_lt hn (by omega)
  have hstrict := strict_getD_lt_iff (sortQ_sorted_lt hnd) hidx ht
  have hpos : 1 ≤ ((i + 1) * (sortQ ys).length + k - 1) / k := rank_pos hk hn (by omega)
  constructor
  · intro hlt
    have := hstrict.mp hlt
    omega
  · intro hle
    apply hstrict.mpr
    omega

/-- C4 (counterexample): `[1,1,1,1,2,3]` has 3 unique values, at least
`k = 2`, yet the Quantiles classifier assigns 4 of the 6 observations to bin
`0`, while `floor(6/2) = ceil(6/2) = 3`: duplicated data points make the bin
populations unbalanced even when the number of unique values is at least
`k`. -/
theorem c4_balance_counterexample :
    2 ≤ uniqueCount [1, 1, 1, 1, 2, 3] ∧
    (Quantiles [1, 1, 1, 1, 2, 3] 2).yb.countP (fun b => b = 0) = 4 ∧
    ([1, 1, 1, 1, 2, 3] : List ℚ).length / 2 = 3 ∧
    (([1, 1, 1, 1, 2, 3] : List ℚ).length + 2 - 1) / 2 = 3 :=
  of_decide_eq_true (by with_unfolding_all rfl)

/-- C4 (amended): When all observation values are distinct (the number of
unique values equals `n`, not merely at least `k`), the Quantiles classifier
with `1 ≤ k ≤ n` assigns either `floor(n/k)` or `ceil(n/k)` observations to
every bin. -/
theorem c4_quantiles_balanced (ys : List ℚ) (k : ℕ) (hnd : ys.Nodup) (hk : 1 ≤ k)
    (_hkn : k ≤ ys.length) :
    ∀ j < k, (Quantiles ys k).yb.countP (fun b => b = j) = ys.length / k ∨
      (Quantiles ys k).yb.countP (fun b => b = j) = (ys.length + k - 1) / k := by
  intro j hj
  have hlen : (sortQ ys).length = ys.length := length_sortQ ys
  have hcount : (Quantiles ys k).yb.countP (fun b => b = j) =
      ((j + 1) * (sortQ ys).length + k - 1) / k - (j * (sortQ ys).length + k - 1) / k := by
    show (ys.map (binOf (mkBounds ys (qCuts ys k)))).countP (fun b => decide (b = j)) = _
    rw [List.countP_map, ← List.Perm.countP_eq _ (sortQ_perm ys)]
    conv_lhs => rw [← self_eq_map_getD_range (sortQ ys)]
    rw [List.countP_map]
    have hcong : (List.range (sortQ ys).length).countP
          (((fun b => decide (b = j)) ∘ binOf (mkBounds ys (qCuts ys k))) ∘
            fun t => (sortQ ys).getD t 0) =
        (List.range (sortQ ys).length).countP
          (fun t => decide ((j * (sortQ ys).length + k - 1) / k ≤ t ∧
            t < ((j + 1) * (sortQ ys).length + k - 1) / k)) := by
      apply List.countP_congr
      intro t htr
      rw [List.mem_range] at htr
      simp only [Function.comp_apply, decide_eq_true_eq]
      rw [binOf_quantiles_eq hnd hk htr]
      exact cnt_band_iff hk hj htr
    rw [hcong, count_range_band _ _ _ (rank_mono (by omega)) (rank_le_n hk (by omega))]
  rw [hcount, hlen]
  exact rank_diff hk j

/-- C4 (witness): The balance theorem applied at the distinct values
`[10, 7, 1, 4]` with `k = 2`, bin `0`. -/
theorem c4_quantiles_balanced_witness :
    (Quantiles [10, 7, 1, 4] 2).yb.countP (fun b => b = 0) = ([10, 7, 1, 4] : List ℚ).length / 2 ∨
    (Quantiles [10, 7, 1, 4] 2).yb.countP (fun b => b = 0) =
      (([10, 7, 1, 4] : List ℚ).length + 2 - 1) / 2 :=
  c4_quantiles_balanced [10, 7, 1, 4] 2 (by decide) (by decide) (by decide) 0 (by decide)

/-! ## Claim C1: Fisher–Jenks optimality -/

theorem mean_perm {l l' : List ℚ} (h : l.Perm l') : mean l = mean l' := by
  unfold mean
  rw [h.sum_eq, h.length_eq]

theorem ssd_perm {l l' : List ℚ} (h : l.Perm l') : ssd l = ssd l' := by
  unfold ssd
  rw [mean_perm h, (h.map _).sum_eq]

theorem zip_map_filter (f : ℚ → ℕ) (j : ℕ) : ∀ ys : List ℚ,
    ((ys.zip (ys.map f)).filter (fun p => p.2 = j)).map Prod.fst =
      ys.filter (fun y => f y = j) := by
  intro ys
  induction ys with
  | nil => rfl
  | cons a t ih =>
    show ((((a, f a) :: t.zip (t.map f)).filter (fun p => p.2 = j)).map Prod.fst) = _
    rw [List.filter_cons, List.filter_cons]
    by_cases h : f a = j
    · rw [if_pos (decide_eq_true h), if_pos (decide_eq_true h), List.map_cons, ih]
    · rw [if_neg (by simpa using h), if_neg (by simpa using h), ih]

theorem binOf_mono (bnds : List ℚ) {x y : ℚ} (hxy : x ≤ y) :
    binOf bnds x ≤ binOf bnds y := by
  unfold binOf binOfCuts
  apply List.countP_mono_left
  intro c _hc hlt
  simp only [decide_eq_true_eq] at *
  exact lt_of_lt_of_le hlt hxy

theorem binOf_lt_k {ys interior : List ℚ} {k : ℕ} (hk : 1 ≤ k)
    (hlen : interior.length ≤ k - 1) (y : ℚ) : binOf (mkBounds ys interior) y < k := by
  rw [binOf_mkBounds]
  have h1 := binOfCuts_le_length (List.insertionSort (· ≤ ·) interior) y
  have h2 : (List.insertionSort (· ≤ ·) interior).length = interior.length :=
    List.length_insertionSort _ _
  omega

theorem filter_lt_append_eq {f : ℚ → ℕ} {k : ℕ}
    (hmono : ∀ x y : ℚ, x ≤ y → f x ≤ f y) :
    ∀ {s : List ℚ}, s.Sorted (· ≤ ·) →
      s.filter (fun y => f y < k) ++ s.filter (fun y => f y = k) =
        s.filter (fun y => f y < k + 1) := by
  intro s
  induction s with
  | nil => intro _; rfl
  | cons a t ih =>
    intro hs
    obtain ⟨ha, hst⟩ := List.sorted_cons.mp hs
    rw [List.filter_cons, List.filter_cons, List.filter_cons]
    by_cases h1 : f a < k
    · rw [if_pos (decide_eq_true h1), if_neg (by simp only [decide_eq_true_eq]; omega),
        if_pos (decide_eq_true (show f a < k + 1 by omega)), List.cons_append, ih hst]
    · by_cases h2 : f a = k
      · rw [if_neg (by simpa using h1), if_pos (decide_eq_true h2),
          if_pos (decide_eq_true (show f a < k + 1 by omega))]
        have hnil : t.filter (fun y => decide (f y < k)) = [] := by
          apply List.filter_eq_nil_iff.mpr
          intro x hx
          simp only [decide_eq_true_eq]
          have := hmono a x (ha x hx)
          omega
        rw [hnil, List.nil_append]
        congr 1
        apply List.filter_congr
        intro x hx
        apply decide_eq_decide.mpr
        have := hmono a x (ha x hx)
        omega
      · rw [if_neg (by simpa using h1), if_neg (by simpa using h2),
          if_neg (by simp only [decide_eq_true_eq]; omega)]
        exact ih hst

theorem filter_flatMap_range {f : ℚ → ℕ} {s : List ℚ} (hs : s.Sorted (· ≤ ·))
    (hmono : ∀ x y : ℚ, x ≤ y → f x ≤ f y) :
    ∀ k : ℕ, (List.range k).flatMap (fun j => s.filter (fun y => f y = j)) =
      s.filter (fun y => f y < k) := by
  intro k
  induction k with
  | zero =>
    rw [List.range_zero]
    symm
    apply List.filter_eq_nil_iff.mpr
    intro x _
    simp
  | succ k ih =>
    rw [List.range_succ, List.flatMap_append, ih]
    show _ ++ (List.filter _ s ++ []) = _
    rw [List.append_nil]
    exact filter_lt_append_eq hmono hs

theorem fib_parts_mem {ys : List ℚ} {k : ℕ} (bnds : List ℚ)
    (hbd : ∀ y, binOf bnds y < k) :
    (List.range k).map (fun j => (sortQ ys).filter (fun y => binOf bnds y = j)) ∈
      partsK k (sortQ ys) := by
  apply partsK_complete
  · simp
  · rw [← List.flatMap_def,
      filter_flatMap_range (sortQ_sorted ys) (fun x y hxy => binOf_mono bnds hxy) k]
    apply List.filter_eq_self.mpr
    intro y _
    exact decide_eq_true (hbd y)

theorem fj_le_fiber_ssd {ys : List ℚ} {k : ℕ} (hk : 1 ≤ k) (bnds : List ℚ)
    (hbd : ∀ y, binOf bnds y < k) :
    totalSSD (fjParts ys k) ≤
      ((List.range k).map (fun j => ssd (ys.filter (fun y => binOf bnds y = j)))).sum := by
  have hmin := (fjParts_spec ys hk).2 _ (fib_parts_mem bnds hbd)
  refine le_trans hmin (le_of_eq ?_)
  unfold totalSSD
  rw [List.map_map]
  apply congrArg List.sum
  apply List.map_congr_left
  intro j _
  exact ssd_perm ((sortQ_perm ys).filter _)

theorem ssdOf_eq_fiber_ssd (ys bnds : List ℚ) (k : ℕ) :
    ssdOf ⟨bnds, ys.map (binOf bnds), k⟩ ys =
      ((List.range k).map (fun j => ssd (ys.filter (fun y => binOf bnds y = j)))).sum := by
  unfold ssdOf
  apply congrArg List.sum
  apply List.map_congr_left
  intro j _
  apply congrArg ssd
  exact zip_map_filter (binOf bnds) j ys

theorem eiCuts_len (ys : List ℚ) (k : ℕ) : (eiCuts ys k).length = k - 1 := by
  unfold eiCuts
  rw [List.length_map, List.length_range]

theorem qCuts_len (ys : List ℚ) (k : ℕ) : (qCuts ys k).length = k - 1 := by
  unfold qCuts
  rw [List.length_map, List.length_range]

theorem mbCuts_len (ys : List ℚ) (k : ℕ) : (mbCuts ys k).length ≤ k - 1 := by
  unfold mbCuts
  rw [List.length_map, List.length_take]
  omega

theorem fjCuts_len {ys : List ℚ} {k : ℕ} (hk : 1 ≤ k) : (fjCuts ys k).length ≤ k - 1 := by
  unfold fjCuts
  have hplen : (fjParts ys k).length = k := (partsK_sound (fjParts_spec ys hk).1).1
  rw [List.length_flatMap]
  have hone : ∀ x ∈ ((fjParts ys k).dropLast.map
      (List.length ∘ fun p => p.getLast?.toList)), x ≤ 1 := by
    intro x hx
    obtain ⟨p, _hp, rfl⟩ := List.mem_map.mp hx
    show p.getLast?.toList.length ≤ 1
    cases hgl : p.getLast? <;> simp [hgl]
  have hsum := List.sum_le_card_nsmul _ 1 hone
  rw [List.length_map, List.length_dropLast, hplen] at hsum
  simpa using hsum

/-- C1 (counterexample): The claimed ADCM optimality fails: on
`[0, 3, 6, 10, 10]` with `k = 2` all four classifiers succeed, yet the
Quantiles classification has ADCM `6` while Fisher–Jenks (which optimizes the
sum of squared deviations from class means, not the ADCM) has ADCM `7`. -/
theorem c1_adcm_counterexample :
    classify .equalInterval [0, 3, 6, 10, 10] 2 = .ok (runK .equalInterval [0, 3, 6, 10, 10] 2) ∧
    classify .quantiles [0, 3, 6, 10, 10] 2 = .ok (runK .quantiles [0, 3, 6, 10, 10] 2) ∧
    classify .maximumBreaks [0, 3, 6, 10, 10] 2 = .ok (runK .maximumBreaks [0, 3, 6, 10, 10] 2) ∧
    classify .fisherJenks [0, 3, 6, 10, 10] 2 = .ok (runK .fisherJenks [0, 3, 6, 10, 10] 2) ∧
    adcm (Quantiles [0, 3, 6, 10, 10] 2) [0, 3, 6, 10, 10] <
      adcm (Fisher_Jenks [0, 3, 6, 10, 10] 2) [0, 3, 6, 10, 10] :=
  ⟨by with_unfolding_all rfl, by with_unfolding_all rfl, by with_unfolding_all rfl,
   by with_unfolding_all rfl, of_decide_eq_true (by with_unfolding_all rfl)⟩

/-- C1 (amended): Fisher–Jenks is optimal for its own objective: for every
observation array and every `k` for which all four classifiers succeed, the
total within-class sum of squared deviations from class means of the
Fisher–Jenks partition is at most the within-class SSD of the classifications
produced by Equal Interval, Quantiles, and Maximum Breaks (and of the
Fisher–Jenks classification itself); the analogous statement for ADCM, the
metric named by the spec, is false. -/
theorem c1_fisher_jenks_ssd_optimal (ys : List ℚ) (k : ℕ) (hk : 1 ≤ k)
    (_hkn : k ≤ ys.length) :
    totalSSD (fjParts ys k) ≤ ssdOf (Equal_Interval ys k) ys ∧
    totalSSD (fjParts ys k) ≤ ssdOf (Quantiles ys k) ys ∧
    totalSSD (fjParts ys k) ≤ ssdOf (Maximum_Breaks ys k) ys ∧
    totalSSD (fjParts ys k) ≤ ssdOf (Fisher_Jenks ys k) ys := by
  refine ⟨?_, ?_, ?_, ?_⟩
  · show totalSSD (fjParts ys k) ≤
      ssdOf ⟨mkBounds ys (eiCuts ys k), ys.map (binOf (mkBounds ys (eiCuts ys k))), k⟩ ys
    rw [ssdOf_eq_fiber_ssd]
    exact fj_le_fiber_ssd hk _ (binOf_lt_k hk (le_of_eq (eiCuts_len ys k)))
  · show totalSSD (fjParts ys k) ≤
      ssdOf ⟨mkBounds ys (qCuts ys k), ys.map (binOf (mkBounds ys (qCuts ys k))), k⟩ ys
    rw [ssdOf_eq_fiber_ssd]
    exact fj_le_fiber_ssd hk _ (binOf_lt_k hk (le_of_eq (qCuts_len ys k)))
  · show totalSSD (fjParts ys k) ≤
      ssdOf ⟨mkBounds ys (mbCuts ys k), ys.map (binOf (mkBounds ys (mbCuts ys k))), k⟩ ys
    rw [ssdOf_eq_fiber_ssd]
    exact fj_le_fiber_ssd hk _ (binOf_lt_k hk (mbCuts_len ys k))
  · show totalSSD (fjParts ys k) ≤
      ssdOf ⟨mkBounds ys (fjCuts ys k), ys.map (binOf (mkBounds ys (fjCuts ys k))), k⟩ ys
    rw [ssdOf_eq_fiber_ssd]
    exact fj_le_fiber_ssd hk _ (binOf_lt_k hk (fjCuts_len hk))

/-- C1 (witness): The SSD-optimality theorem applied at the
counterexample input `[0, 3, 6, 10, 10]` with `k = 2`. -/
theorem c1_fisher_jenks_ssd_optimal_witness :
    totalSSD (fjParts [0, 3, 6, 10, 10] 2) ≤ ssdOf (Equal_Interval [0, 3, 6, 10, 10] 2) [0, 3, 6, 10, 10] ∧
    totalSSD (fjParts [0, 3, 6, 10, 10] 2) ≤ ssdOf (Quantiles [0, 3, 6, 10, 10] 2) [0, 3, 6, 10, 10] ∧
    totalSSD (fjParts [0, 3, 6, 10, 10] 2) ≤ ssdOf (Maximum_Breaks [0, 3, 6, 10, 10] 2) [0, 3, 6, 10, 10] ∧
    totalSSD (fjParts [0, 3, 6, 10, 10] 2) ≤ ssdOf (Fisher_Jenks [0, 3, 6, 10, 10] 2) [0, 3, 6, 10, 10] :=
  c1_fisher_jenks_ssd_optimal [0, 3, 6, 10, 10] 2 (by decide) (by decide)

end MapClassify
